import Mathlib

/-!
Verification development for the serverless-chat-langchainjs chat backend.

The TypeScript handlers in `packages/api/src/functions/chats-post.ts`,
`packages/api/src/functions/chats-delete.ts` and the client module
`packages/webapp/src/api.ts` are shallowly embedded below.  JavaScript
values stored in message metadata objects are modelled by `Chat.JValue`
(including `null` and `undefined`, with JavaScript truthiness), and
JavaScript objects used as string-keyed records by association lists with
`kwGet` lookup and `kwMerge` for object spread.  Strings are Lean strings;
`jsTrim` stands for JavaScript `String.prototype.trim`.
-/

namespace Chat

/-- Model of a JavaScript value stored in a message metadata record. -/
inductive JValue where
  | str (s : String)
  | num (n : Int)
  | bool (b : Bool)
  | null
  | undefined
deriving DecidableEq, Repr

/-- JavaScript truthiness of a `JValue`. -/
def JValue.truthy : JValue → Bool
  | .str s => s ≠ ""
  | .num n => n ≠ 0
  | .bool b => b
  | .null => false
  | .undefined => false

/-- Drop leading whitespace characters from a character list. -/
def dropLeadingWs : List Char → List Char
  | [] => []
  | c :: rest => if c.isWhitespace then dropLeadingWs rest else c :: rest

/-- Model of JavaScript `String.prototype.trim`: drop leading and trailing
whitespace (defined by structural recursion so that it evaluates inside the
kernel). -/
def jsTrim (s : String) : String :=
  String.mk (dropLeadingWs (dropLeadingWs s.data).reverse).reverse

/-- A JavaScript object used as a string-keyed record (`additional_kwargs`,
`response_metadata`, the session context). -/
abbrev KW := List (String × JValue)

/-- Lookup of a key in a record: the first binding wins. -/
def kwGet : KW → String → Option JValue
  | [], _ => none
  | (k, v) :: rest, key => if k = key then some v else kwGet rest key

/-- JavaScript property access `obj.k`: `undefined` when the key is absent. -/
def jsGet (m : KW) (k : String) : JValue := (kwGet m k).getD .undefined

/-- JavaScript `a || b` on values. -/
def jsOr (a b : JValue) : JValue := if a.truthy then a else b

/-- JavaScript object spread `\x7b ...a, ...b \x7d`: bindings of `b` override
bindings of `a`. -/
def kwMerge (a b : KW) : KW := (a.filter fun p => (kwGet b p.1).isNone) ++ b

/-- Keep a present value only when it is truthy (models a step of a
JavaScript `||` chain over record fields). -/
def truthyOpt : Option JValue → Option JValue
  | some w => if w.truthy then some w else none
  | none => none

/-- A LangChain chat message as the handlers see it: `type` is the message
type tag (`"human"`, `"ai"`, ...), `content` the text, plus the two metadata
records and the two direct properties read by `getMessageId`. -/
structure Message where
  type : String
  content : String
  additional_kwargs : KW
  response_metadata : KW
  messageId : Option JValue
  id : Option JValue
deriving DecidableEq, Repr

/-- `getMessageId` from chats-post.ts lines 53-61 and chats-delete.ts lines
10-18: first truthy among `additional_kwargs.messageId`,
`response_metadata.messageId`, `messageId`, `id`; `none` models the
JavaScript `null` result. -/
def getMessageId (m : Message) : Option JValue :=
  (truthyOpt (kwGet m.additional_kwargs "messageId")).orElse fun _ =>
    (truthyOpt (kwGet m.response_metadata "messageId")).orElse fun _ =>
      (truthyOpt m.messageId).orElse fun _ => truthyOpt m.id

/-- `setMessageId` from chats-post.ts lines 64-68: writes the identifier into
`additional_kwargs`, `response_metadata` and the direct `messageId`
property. -/
def setMessageId (m : Message) (mid : String) : Message :=
  { m with
    additional_kwargs := kwMerge m.additional_kwargs [("messageId", .str mid)]
    response_metadata := kwMerge m.response_metadata [("messageId", .str mid)]
    messageId := some (.str mid) }

/-- `new HumanMessage(content)`: fresh message with empty metadata. -/
def mkHumanMessage (c : String) : Message := ⟨"human", c, [], [], none, none⟩

/-- `new AIMessage(content)`: fresh message with empty metadata. -/
def mkAIMessage (c : String) : Message := ⟨"ai", c, [], [], none, none⟩

/-! ## postChats: user-message phase (chats-post.ts lines 118-146)

`postChats` loads the existing session messages, decides with a trimmed
content comparison whether the incoming user question is a duplicate of an
already stored human message, and only in the non-duplicate case appends a
new `HumanMessage` tagged with a fresh identifier.  The RAG chain is then
invoked on the updated message list.  In the duplicate branch the code
recovers the identifier of the most recent human message whose content is
exactly (untrimmed) the question; when that exact-match lookup comes back
empty, `getMessageId(undefined)` throws, the handler's catch returns a 503
response and the history is left as it was — modelled by a `none`
identifier result. -/

/-- The duplicate test of chats-post.ts lines 123-127. -/
def isDuplicateUser (existing : List Message) (q : String) : Bool :=
  existing.any fun m => m.type == "human" && jsTrim m.content == jsTrim q

/-- The user-message phase of `postChats`: returns the session messages the
model will see plus the user message identifier (`none` when the request
aborts with an error). -/
def addUserStep (existing : List Message) (q freshId : String) :
    List Message × Option JValue :=
  if isDuplicateUser existing q then
    match (existing.filter fun m => m.type == "human" && m.content == q).getLast? with
    | none => (existing, none)
    | some m => (existing, some ((getMessageId m).getD (.str freshId)))
  else
    (existing ++ [setMessageId (mkHumanMessage q) freshId], some (.str freshId))

/-! ## postChats: title phase (chats-post.ts lines 183-194)

`postChats` reads the session context; only when its `title` is falsy
(absent, null or the empty string) does it invoke the title model and call
`setContext` with the generated title.  The boolean in the result records
whether the model call and `setContext` happened. -/

/-- The title-generation phase of `postChats`; `generated` is the title the
model would produce. -/
def titleStep (ctx : KW) (generated : JValue) : KW × Bool :=
  if (jsGet ctx "title").truthy then (ctx, false)
  else ([("title", generated)], true)

/-! ## createJsonStream (chats-post.ts lines 208-257)

The generator walks the model chunks, skips falsy (empty) chunks,
accumulates the full response, and yields one newline-terminated JSON line
per non-empty chunk.  After the loop it persists the accumulated response
at most once: only when the trimmed text is non-empty and no stored `ai`
message already carries that trimmed text. -/

/-- Concatenation of a list of strings. -/
def concatList : List String → String
  | [] => ""
  | c :: rest => c ++ concatList rest

/-- Lower-case hexadecimal digit. -/
def hexDigit (n : Nat) : Char :=
  if n < 10 then Char.ofNat (48 + n) else Char.ofNat (87 + n)

/-- Escaping of one character as performed by `JSON.stringify` inside a
string literal. -/
def jsonEscapeChar (c : Char) : String :=
  if c = '"' then "\\\""
  else if c = '\\' then "\\\\"
  else if c = '\x08' then "\\b"
  else if c = '\t' then "\\t"
  else if c = '\n' then "\\n"
  else if c = '\x0c' then "\\f"
  else if c = '\r' then "\\r"
  else if c.toNat < 32 then
    "\\u00" ++ String.mk [hexDigit (c.toNat / 16), hexDigit (c.toNat % 16)]
  else String.singleton c

/-- `JSON.stringify` of a string. -/
def jsonQuote (s : String) : String :=
  "\"" ++ concatList (s.data.map jsonEscapeChar) ++ "\""

/-- `JSON.stringify` of the `AIChatCompletionDelta` object built at
chats-post.ts lines 222-231 (insertion-order keys, no whitespace). -/
def deltaLine (content sid mid : String) : String :=
  "\x7b\"delta\":\x7b\"content\":" ++ jsonQuote content ++
    ",\"role\":\"assistant\"\x7d,\"context\":\x7b\"sessionId\":" ++ jsonQuote sid ++
    ",\"messageId\":" ++ jsonQuote mid ++ "\x7d\x7d"

/-- The chunk loop of `createJsonStream`: accumulates the full response and
the yielded NDJSON lines, skipping falsy chunks. -/
def streamLoop (sid mid : String) : List String → String → List String → String × List String
  | [], full, out => (full, out)
  | c :: rest, full, out =>
    if c = "" then streamLoop sid mid rest full out
    else streamLoop sid mid rest (full ++ c) (out ++ [deltaLine c sid mid ++ "\n"])

/-- Result of a completed `createJsonStream` run: the yielded NDJSON lines,
the accumulated full response, and the session history after the
at-most-one commit. -/
structure StreamResult where
  lines : List String
  fullResponse : String
  history : List Message
deriving DecidableEq, Repr

/-- `createJsonStream` over a completed chunk sequence, with `history` the
stored session messages at stream completion (the store is assumed
reliable; a storage error is swallowed by the inner catch). -/
def createJsonStream (chunks : List String) (sid mid : String)
    (history : List Message) : StreamResult :=
  let fullOut := streamLoop sid mid chunks "" []
  let full := fullOut.1
  let history2 :=
    if jsTrim full ≠ "" then
      if history.any (fun m => m.type == "ai" && m.content == jsTrim full) then history
      else history ++ [setMessageId (mkAIMessage full) mid]
    else history
  ⟨fullOut.2, full, history2⟩

/-- The full response a completed stream accumulates: the concatenation of
the non-empty chunks. -/
def fullResponseOf (chunks : List String) : String :=
  concatList (chunks.filter fun c => ¬ c = "")

/-! ## deleteMessage (chats-delete.ts lines 150-259)

After parameter validation the handler loads the session messages, rejects
the request when the session is empty or no message carries the requested
identifier, and otherwise clears the store and sequentially re-adds the
messages whose identifier differs, merging session-level metadata taken
from the first original message into each re-added message's
`additional_kwargs` and stamping `messageId`, `messageIndex`, `isFirst`,
`isLast`. -/

/-- The identifier comparison `getMessageId(msg) === messageId` used by both
`find` and `filter` in `deleteMessage`. -/
def matchesId (mid : String) (m : Message) : Bool :=
  getMessageId m = some (.str mid)

/-- The `sessionMetadata` object built at chats-delete.ts lines 191-207 from
the first original message. -/
def sessionMetadataOf (fm : Message) (sid uid now : String) : KW :=
  kwMerge
    [("title", jsGet fm.additional_kwargs "title"),
     ("sessionId", jsOr (jsGet fm.additional_kwargs "sessionId") (.str sid)),
     ("userId", jsOr (jsGet fm.additional_kwargs "userId") (.str uid)),
     ("createdAt", jsGet fm.additional_kwargs "createdAt"),
     ("updatedAt", .str now)]
    (fm.additional_kwargs.filter fun p =>
      ¬ p.1 ∈ (["messageId", "content", "role"] : List String))

/-- The `additional_kwargs` rewrite applied to the message re-added at
position `i` of `total` (chats-delete.ts lines 220-233). -/
def reAddMessage (sm : KW) (total i : Nat) (m : Message) : Message :=
  { m with
    additional_kwargs :=
      kwMerge (kwMerge sm m.additional_kwargs)
        [("messageId",
           jsOr (jsGet m.additional_kwargs "messageId") ((getMessageId m).getD .null)),
         ("messageIndex", .num i),
         ("isFirst", .bool (i == 0)),
         ("isLast", .bool (i == total - 1))] }

/-- The sequential re-add loop of chats-delete.ts lines 216-237. -/
def reAddAll (sm : KW) (total : Nat) : Nat → List Message → List Message
  | _, [] => []
  | i, m :: rest => reAddMessage sm total i m :: reAddAll sm total (i + 1) rest

/-- Outcome of the history-manipulation core of `deleteMessage`: the stored
messages afterwards, and `some remainingMessages` on success or `none` for
the bad-request responses. -/
structure DeleteOutcome where
  stored : List Message
  remaining : Option Nat
deriving DecidableEq, Repr

/-- The history-manipulation core of `deleteMessage` (after parameter
validation, with a reliable store). -/
def deleteMessage (msgs : List Message) (mid sid uid now : String) : DeleteOutcome :=
  match msgs with
  | [] => ⟨[], none⟩
  | m0 :: rest =>
    if ((m0 :: rest).find? (matchesId mid)).isSome then
      let filtered := (m0 :: rest).filter fun m => ! matchesId mid m
      ⟨reAddAll (sessionMetadataOf m0 sid uid now) filtered.length 0 filtered,
        some filtered.length⟩
    else ⟨m0 :: rest, none⟩

/-! ## cleanupDuplicates (chats-post.ts lines 342-386)

The handler walks the session messages keeping the first occurrence of each
`type:content` key; a kept message lacking an identifier is replaced by a
fresh `HumanMessage`/`AIMessage` with a new identifier (a kept message of
any other type without an identifier is silently dropped).  The store is
cleared and rewritten only when at least one message was removed. -/

/-- The dedup loop of chats-post.ts lines 347-367; `fresh n` is the `n`-th
generated UUID. -/
def cleanupLoop (fresh : Nat → String) :
    List Message → List Message → List String → Nat → List Message
  | [], uniq, _, _ => uniq
  | m :: rest, uniq, seen, n =>
    if m.type ++ ":" ++ m.content ∈ seen then cleanupLoop fresh rest uniq seen n
    else if (getMessageId m).isSome then
      cleanupLoop fresh rest (uniq ++ [m]) ((m.type ++ ":" ++ m.content) :: seen) n
    else if m.type = "human" then
      cleanupLoop fresh rest (uniq ++ [setMessageId (mkHumanMessage m.content) (fresh n)])
        ((m.type ++ ":" ++ m.content) :: seen) (n + 1)
    else if m.type = "ai" then
      cleanupLoop fresh rest (uniq ++ [setMessageId (mkAIMessage m.content) (fresh n)])
        ((m.type ++ ":" ++ m.content) :: seen) (n + 1)
    else cleanupLoop fresh rest uniq ((m.type ++ ":" ++ m.content) :: seen) n

/-- Outcome of `cleanupDuplicates`: the stored messages afterwards, the
reported `removedDuplicates` count, and whether the store was rewritten. -/
structure CleanupResult where
  stored : List Message
  removedDuplicates : Nat
  rewritten : Bool
deriving DecidableEq, Repr

/-- The history-manipulation core of `cleanupDuplicates` (after parameter
validation, with a reliable store). -/
def cleanupDuplicates (msgs : List Message) (fresh : Nat → String) : CleanupResult :=
  let uniq := cleanupLoop fresh msgs [] [] 0
  let removed := msgs.length - uniq.length
  if 0 < removed then ⟨uniq, removed, true⟩ else ⟨msgs, removed, false⟩

/-- The `(type, content)` pair of a message. -/
def pairOf (m : Message) : String × String := (m.type, m.content)

/-- Projection of a message to the data `deleteMessage` is specified to
preserve: type, content and identifier (its `additional_kwargs` are
enriched by the rewrite, which claim C4 covers separately). -/
def msgCore (m : Message) : String × String × Option JValue :=
  (m.type, m.content, getMessageId m)

/-- Specification-side helper: keep the first occurrence of each element,
in order, having already seen `seen`. -/
def dedupFirstAux {α : Type} [DecidableEq α] (seen : List α) : List α → List α
  | [] => []
  | a :: rest =>
    if a ∈ seen then dedupFirstAux seen rest
    else a :: dedupFirstAux (a :: seen) rest

/-- Specification-side helper: keep exactly the first occurrence of each
element of a list, in its original relative order. -/
def dedupFirst {α : Type} [DecidableEq α] (l : List α) : List α :=
  dedupFirstAux [] l

/-! ## Client generator getCompletion (webapp/src/api.ts lines 12-26)

The client generator walks the streamed responses, skips any response with
no `delta`, and republishes each remaining response wrapped in a promise
that resolves after `chunkIntervalMs` milliseconds; the delay is modelled
symbolically as the second component of each yielded pair. -/

/-- A streamed `AIChatCompletionDelta` as the client sees it. -/
structure CompletionDelta where
  content : Option String
  role : Option String
deriving DecidableEq, Repr

/-- A streamed completion response: the optional `delta` plus the context
record. -/
structure CompletionResponse where
  delta : Option CompletionDelta
  context : KW
deriving DecidableEq, Repr

/-- The republishing loop of `getCompletion`; each yielded pair is a
response together with the delay (in milliseconds) after which its promise
resolves. -/
def getCompletion (rs : List CompletionResponse) (chunkIntervalMs : Nat) :
    List (CompletionResponse × Nat) :=
  match rs with
  | [] => []
  | r :: rest =>
    if r.delta.isSome then (r, chunkIntervalMs) :: getCompletion rest chunkIntervalMs
    else getCompletion rest chunkIntervalMs

/-- Concrete stored message used in witnesses and counterexamples: a human
message with identifier `"a"` and a session title in its metadata. -/
def cexHuman : Message :=
  ⟨"human", "q", [("messageId", .str "a"), ("title", .str "T")], [], none, none⟩

/-- Concrete stored message used in witnesses and counterexamples: an ai
message with identifier `"b"` and a pre-existing `messageIndex` field. -/
def cexAi : Message :=
  ⟨"ai", "ans", [("messageId", .str "b"), ("messageIndex", .num 5)], [], none, none⟩

/-! ## Helper lemmas about records and message identifiers -/

theorem option_orElse_none (o : Option JValue) : (o.orElse fun _ => none) = o := by
  cases o <;> rfl

theorem kwGet_append (a b : KW) (k : String) :
    kwGet (a ++ b) k = (kwGet a k).orElse fun _ => kwGet b k := by
  induction a with
  | nil => simp [kwGet, Option.orElse]
  | cons p rest ih =>
    by_cases h : p.1 = k
    · simp [kwGet, h, Option.orElse]
    · simp [kwGet, h, ih]

theorem kwGet_filter_covered (a b : KW) (k : String) (w : JValue)
    (h : kwGet b k = some w) :
    kwGet (a.filter fun p => (kwGet b p.1).isNone) k = none := by
  induction a with
  | nil => simp [kwGet]
  | cons p rest ih =>
    obtain ⟨k1, v1⟩ := p
    by_cases hkey : k1 = k
    · subst hkey
      have hdrop : (kwGet b k1).isNone = false := by rw [h]; rfl
      simp [List.filter, hdrop, ih]
    · by_cases hkeep : (kwGet b k1).isNone
      · simp [List.filter, hkeep, kwGet, hkey, ih]
      · simp only [List.filter]
        rw [Bool.of_not_eq_true hkeep]
        exact ih

theorem kwGet_filter_free (a b : KW) (k : String)
    (h : kwGet b k = none) :
    kwGet (a.filter fun p => (kwGet b p.1).isNone) k = kwGet a k := by
  induction a with
  | nil => rfl
  | cons p rest ih =>
    obtain ⟨k1, v1⟩ := p
    by_cases hkey : k1 = k
    · subst hkey
      have hkeep : (kwGet b k1).isNone = true := by rw [h]; rfl
      simp [List.filter, hkeep, kwGet]
    · by_cases hkeep : (kwGet b k1).isNone
      · simp [List.filter, hkeep, kwGet, hkey, ih]
      · simp only [List.filter]
        rw [Bool.of_not_eq_true hkeep]
        rw [ih]
        simp [kwGet, hkey]

theorem kwGet_kwMerge (a b : KW) (k : String) :
    kwGet (kwMerge a b) k = (kwGet b k).orElse fun _ => kwGet a k := by
  unfold kwMerge
  rw [kwGet_append]
  cases hb : kwGet b k with
  | none =>
    rw [kwGet_filter_free a b k hb, option_orElse_none]
    rfl
  | some w =>
    rw [kwGet_filter_covered a b k w hb]
    rfl

theorem kwGet_filter_of_key (l : KW) (q : String → Bool) (k : String)
    (hq : q k = true) :
    kwGet (l.filter fun p => q p.1) k = kwGet l k := by
  induction l with
  | nil => rfl
  | cons p rest ih =>
    obtain ⟨k1, v1⟩ := p
    by_cases hkey : k1 = k
    · subst hkey
      simp [List.filter, hq, kwGet]
    · by_cases hkeep : q k1 = true
      · simp [List.filter, hkeep, kwGet, hkey, ih]
      · rw [Bool.not_eq_true] at hkeep
        simp only [List.filter, hkeep]
        rw [ih]
        simp [kwGet, hkey]

theorem truthyOpt_some_truthy (o : Option JValue) (v : JValue)
    (h : truthyOpt o = some v) : o = some v ∧ v.truthy = true := by
  cases o with
  | none => simp [truthyOpt] at h
  | some w =>
    by_cases hw : w.truthy
    · simp [truthyOpt, hw] at h
      subst h; exact ⟨rfl, hw⟩
    · simp [truthyOpt, hw] at h

theorem truthyOpt_of_truthy (v : JValue) (hv : v.truthy = true) :
    truthyOpt (some v) = some v := by
  simp [truthyOpt, hv]

theorem setMessageId_type (m : Message) (mid : String) :
    (setMessageId m mid).type = m.type := rfl

theorem setMessageId_content (m : Message) (mid : String) :
    (setMessageId m mid).content = m.content := rfl

theorem kwGet_setMessageId (m : Message) (mid : String) :
    kwGet (setMessageId m mid).additional_kwargs "messageId" = some (.str mid) := by
  show kwGet (kwMerge m.additional_kwargs [("messageId", .str mid)]) "messageId" = _
  rw [kwGet_kwMerge]
  simp [kwGet, Option.orElse]

theorem getMessageId_setMessageId (m : Message) (mid : String) (hmid : mid ≠ "") :
    getMessageId (setMessageId m mid) = some (.str mid) := by
  unfold getMessageId
  rw [kwGet_setMessageId]
  rw [truthyOpt_of_truthy (.str mid) (by simp [JValue.truthy, hmid])]
  rfl

theorem truthyOpt_none_falsy (o : Option JValue) (h : truthyOpt o = none) :
    (o.getD .undefined).truthy = false := by
  cases o with
  | none => rfl
  | some w =>
    by_cases hw : w.truthy = true
    · simp [truthyOpt, hw] at h
    · rw [Bool.not_eq_true] at hw
      simpa using hw

theorem getMessageId_truthy (m : Message) (v : JValue)
    (h : getMessageId m = some v) : v.truthy = true := by
  unfold getMessageId at h
  cases h1 : truthyOpt (kwGet m.additional_kwargs "messageId") with
  | some w =>
    rw [h1] at h
    simp only [Option.orElse] at h
    cases h
    exact (truthyOpt_some_truthy _ _ h1).2
  | none =>
    rw [h1] at h
    simp only [Option.orElse] at h
    cases h2 : truthyOpt (kwGet m.response_metadata "messageId") with
    | some w =>
      rw [h2] at h
      simp only [Option.orElse] at h
      cases h
      exact (truthyOpt_some_truthy _ _ h2).2
    | none =>
      rw [h2] at h
      simp only [Option.orElse] at h
      cases h3 : truthyOpt m.messageId with
      | some w =>
        rw [h3] at h
        simp only [Option.orElse] at h
        cases h
        exact (truthyOpt_some_truthy _ _ h3).2
      | none =>
        rw [h3] at h
        simp only [Option.orElse] at h
        exact (truthyOpt_some_truthy _ _ h).2

theorem kwGet_reAddMessage_messageId (sm : KW) (t i : Nat) (m : Message) :
    kwGet (reAddMessage sm t i m).additional_kwargs "messageId"
      = some (jsOr (jsGet m.additional_kwargs "messageId")
          ((getMessageId m).getD .null)) := by
  show kwGet (kwMerge (kwMerge sm m.additional_kwargs) _) "messageId" = _
  rw [kwGet_kwMerge]
  simp [kwGet, Option.orElse]

theorem getMessageId_reAddMessage (sm : KW) (t i : Nat) (m : Message) :
    getMessageId (reAddMessage sm t i m) = getMessageId m := by
  have hshape : getMessageId (reAddMessage sm t i m)
      = (truthyOpt (kwGet (reAddMessage sm t i m).additional_kwargs "messageId")).orElse
          fun _ => (truthyOpt (kwGet m.response_metadata "messageId")).orElse
            fun _ => (truthyOpt m.messageId).orElse fun _ => truthyOpt m.id := rfl
  rw [hshape, kwGet_reAddMessage_messageId]
  cases h1 : truthyOpt (kwGet m.additional_kwargs "messageId") with
  | some v =>
    obtain ⟨hv, htr⟩ := truthyOpt_some_truthy _ v h1
    have hmid : getMessageId m = some v := by
      unfold getMessageId
      rw [h1]
      rfl
    have hjs : jsGet m.additional_kwargs "messageId" = v := by simp [jsGet, hv]
    rw [hjs, hmid]
    simp [jsOr, htr, truthyOpt, Option.orElse]
  | none =>
    have hjs : (jsGet m.additional_kwargs "messageId").truthy = false := by
      unfold jsGet
      exact truthyOpt_none_falsy _ h1
    have hmid : getMessageId m
        = (truthyOpt (kwGet m.response_metadata "messageId")).orElse
            fun _ => (truthyOpt m.messageId).orElse fun _ => truthyOpt m.id := by
      unfold getMessageId
      rw [h1]
      rfl
    rw [hmid]
    cases h2 : ((truthyOpt (kwGet m.response_metadata "messageId")).orElse
        fun _ => (truthyOpt m.messageId).orElse fun _ => truthyOpt m.id) with
    | some u =>
      have hu : u.truthy = true := by
        apply getMessageId_truthy m
        rw [hmid, h2]
      rw [jsOr, hjs]
      simp [truthyOpt, hu, Option.orElse]
    | none =>
      rw [jsOr, hjs]
      simp [truthyOpt, JValue.truthy, Option.orElse]

theorem reAddMessage_type (sm : KW) (t i : Nat) (m : Message) :
    (reAddMessage sm t i m).type = m.type := rfl

theorem reAddMessage_content (sm : KW) (t i : Nat) (m : Message) :
    (reAddMessage sm t i m).content = m.content := rfl

theorem msgCore_reAddMessage (sm : KW) (t i : Nat) (m : Message) :
    msgCore (reAddMessage sm t i m) = msgCore m := by
  unfold msgCore
  rw [reAddMessage_type, reAddMessage_content, getMessageId_reAddMessage]

theorem reAddAll_length (sm : KW) (t : Nat) :
    ∀ (i : Nat) (l : List Message), (reAddAll sm t i l).length = l.length := by
  intro i l
  induction l generalizing i with
  | nil => rfl
  | cons m rest ih => simp [reAddAll, ih]

theorem reAddAll_map_msgCore (sm : KW) (t : Nat) :
    ∀ (i : Nat) (l : List Message),
      (reAddAll sm t i l).map msgCore = l.map msgCore := by
  intro i l
  induction l generalizing i with
  | nil => rfl
  | cons m rest ih => simp [reAddAll, msgCore_reAddMessage, ih]

theorem reAddAll_getElem? (sm : KW) (t : Nat) :
    ∀ (l : List Message) (i j : Nat),
      (reAddAll sm t i l)[j]? = (l[j]?).map fun m => reAddMessage sm t (i + j) m := by
  intro l
  induction l with
  | nil => intro i j; simp [reAddAll]
  | cons m rest ih =>
    intro i j
    cases j with
    | zero => simp [reAddAll]
    | succ j2 =>
      simp only [reAddAll, List.getElem?_cons_succ]
      rw [ih (i + 1) j2]
      have : i + 1 + j2 = i + (j2 + 1) := by omega
      rw [this]

theorem length_filter_not (p : α → Bool) (l : List α) :
    (l.filter fun a => ! p a).length = l.length - (l.filter p).length := by
  induction l with
  | nil => rfl
  | cons a rest ih =>
    have hle := List.length_filter_le p rest
    by_cases h : p a
    · simp [List.filter, h, ih]
      try omega
    · rw [Bool.not_eq_true] at h
      simp [List.filter, h, ih]
      try omega

theorem orElse_isSome (a b : Option JValue) (hb : b.isSome = true) :
    (a.orElse fun _ => b).isSome = true := by
  cases a with
  | none => simpa [Option.orElse] using hb
  | some w => simp [Option.orElse]

theorem mem_reAddAll (sm : KW) (t : Nat) :
    ∀ (l : List Message) (i : Nat) (m2 : Message), m2 ∈ reAddAll sm t i l →
      ∃ j m, m ∈ l ∧ m2 = reAddMessage sm t j m := by
  intro l
  induction l with
  | nil => intro i m2 h; simp [reAddAll] at h
  | cons m rest ih =>
    intro i m2 h
    simp only [reAddAll, List.mem_cons] at h
    cases h with
    | inl h => exact ⟨i, m, List.mem_cons_self m rest, h⟩
    | inr h =>
      obtain ⟨j, m3, hm3, heq⟩ := ih (i + 1) m2 h
      exact ⟨j, m3, List.mem_cons_of_mem m hm3, heq⟩

theorem kwGet_filter_notin (l : KW) (keys : List String) (k : String)
    (hk : ¬ k ∈ keys) :
    kwGet (l.filter fun p => ¬ p.1 ∈ keys) k = kwGet l k := by
  induction l with
  | nil => rfl
  | cons p rest ih =>
    obtain ⟨k1, v1⟩ := p
    simp only [decide_not] at ih ⊢
    by_cases hkey : k1 = k
    · subst hkey
      simp [List.filter, hk, kwGet]
    · by_cases hmem : k1 ∈ keys
      · simp [List.filter, hmem, kwGet, hkey, ih]
      · simp [List.filter, hmem, kwGet, hkey, ih]

theorem kwGet_sessionMetadataOf (fm : Message) (sid uid now k : String) (v : JValue)
    (hk1 : k ≠ "messageId") (hk2 : k ≠ "content") (hk3 : k ≠ "role")
    (hv : kwGet fm.additional_kwargs k = some v) :
    kwGet (sessionMetadataOf fm sid uid now) k = some v := by
  unfold sessionMetadataOf
  rw [kwGet_kwMerge,
    kwGet_filter_notin fm.additional_kwargs ["messageId", "content", "role"] k
      (by simp [hk1, hk2, hk3]),
    hv]
  rfl

theorem reAddMessage_kwargs (sm : KW) (t i : Nat) (m : Message) :
    (reAddMessage sm t i m).additional_kwargs
      = kwMerge (kwMerge sm m.additional_kwargs)
          [("messageId", jsOr (jsGet m.additional_kwargs "messageId")
              ((getMessageId m).getD .null)),
           ("messageIndex", .num i),
           ("isFirst", .bool (i == 0)),
           ("isLast", .bool (i == t - 1))] := rfl

theorem mem_dedupFirstAux {α : Type} [DecidableEq α] (l : List α) :
    ∀ (seen : List α) (a : α),
      a ∈ dedupFirstAux seen l ↔ a ∈ l ∧ ¬ a ∈ seen := by
  induction l with
  | nil => intro seen a; simp [dedupFirstAux]
  | cons b rest ih =>
    intro seen a
    by_cases hb : b ∈ seen
    · rw [dedupFirstAux, if_pos hb, ih seen a]
      constructor
      · rintro ⟨h1, h2⟩
        exact ⟨List.mem_cons_of_mem b h1, h2⟩
      · rintro ⟨h1, h2⟩
        rcases List.mem_cons.mp h1 with rfl | h1
        · exact absurd hb h2
        · exact ⟨h1, h2⟩
    · rw [dedupFirstAux, if_neg hb]
      simp only [List.mem_cons, ih (b :: seen) a]
      constructor
      · rintro (rfl | ⟨h1, h2⟩)
        · exact ⟨Or.inl rfl, hb⟩
        · exact ⟨Or.inr h1, fun hc => h2 (Or.inr hc)⟩
      · rintro ⟨hab | h1, h2⟩
        · exact Or.inl hab
        · by_cases hab2 : a = b
          · exact Or.inl hab2
          · exact Or.inr ⟨h1, fun hc => hc.elim hab2 h2⟩

theorem dedupFirstAux_sublist {α : Type} [DecidableEq α] (l : List α) :
    ∀ seen, List.Sublist (dedupFirstAux seen l) l := by
  induction l with
  | nil => intro seen; simp [dedupFirstAux]
  | cons b rest ih =>
    intro seen
    by_cases hb : b ∈ seen
    · rw [dedupFirstAux, if_pos hb]
      exact (ih seen).cons b
    · rw [dedupFirstAux, if_neg hb]
      exact (ih (b :: seen)).cons₂ b

theorem dedupFirstAux_nodup {α : Type} [DecidableEq α] (l : List α) :
    ∀ seen, (dedupFirstAux seen l).Nodup := by
  induction l with
  | nil => intro seen; simp [dedupFirstAux]
  | cons b rest ih =>
    intro seen
    by_cases hb : b ∈ seen
    · rw [dedupFirstAux, if_pos hb]
      exact ih seen
    · rw [dedupFirstAux, if_neg hb]
      refine List.nodup_cons.mpr ⟨fun hc => ?_, ih (b :: seen)⟩
      exact ((mem_dedupFirstAux rest (b :: seen) b).mp hc).2 (List.mem_cons_self b seen)

theorem typeKey_inj (t1 c1 t2 c2 : String)
    (h1 : t1 = "human" ∨ t1 = "ai") (h2 : t2 = "human" ∨ t2 = "ai") :
    t1 ++ ":" ++ c1 = t2 ++ ":" ++ c2 ↔ t1 = t2 ∧ c1 = c2 := by
  have hhd : ("human" : String).data = ['h', 'u', 'm', 'a', 'n'] := by decide
  have had : ("ai" : String).data = ['a', 'i'] := by decide
  have hcd : (":" : String).data = [':'] := by decide
  constructor
  · intro heq
    have hd := congrArg String.data heq
    rw [String.data_append, String.data_append, String.data_append,
      String.data_append] at hd
    rcases h1 with rfl | rfl <;> rcases h2 with rfl | rfl
    · refine ⟨rfl, String.ext (List.append_cancel_left hd)⟩
    · rw [hhd, had, hcd] at hd
      simp only [List.cons_append, List.nil_append] at hd
      injection hd with hc _
      exact absurd hc (by decide)
    · rw [hhd, had, hcd] at hd
      simp only [List.cons_append, List.nil_append] at hd
      injection hd with hc _
      exact absurd hc (by decide)
    · refine ⟨rfl, String.ext (List.append_cancel_left hd)⟩
  · rintro ⟨rfl, rfl⟩
    rfl

theorem pairOf_setMessageId (m : Message) (mid : String) :
    pairOf (setMessageId m mid) = pairOf m := rfl

theorem pairOf_mkHumanMessage (c : String) :
    pairOf (mkHumanMessage c) = ("human", c) := rfl

theorem pairOf_mkAIMessage (c : String) :
    pairOf (mkAIMessage c) = ("ai", c) := rfl

theorem cleanupLoop_pairs (fresh : Nat → String) :
    ∀ (msgs uniq : List Message) (seen : List String) (n : Nat)
      (S : List (String × String)),
      (∀ m ∈ msgs, m.type = "human" ∨ m.type = "ai") →
      (∀ t c, (t = "human" ∨ t = "ai") → ((t ++ ":" ++ c) ∈ seen ↔ (t, c) ∈ S)) →
      (cleanupLoop fresh msgs uniq seen n).map pairOf
        = uniq.map pairOf ++ dedupFirstAux S (msgs.map pairOf) := by
  intro msgs
  induction msgs with
  | nil =>
    intro uniq seen n S htypes hinv
    simp [cleanupLoop, dedupFirstAux]
  | cons m rest ih =>
    intro uniq seen n S htypes hinv
    have hm := htypes m (List.mem_cons_self m rest)
    have hrest : ∀ m2 ∈ rest, m2.type = "human" ∨ m2.type = "ai" :=
      fun m2 h => htypes m2 (List.mem_cons_of_mem m h)
    have hmpair : pairOf m = (m.type, m.content) := rfl
    by_cases hseen : (m.type ++ ":" ++ m.content) ∈ seen
    · have hS : pairOf m ∈ S := by
        rw [hmpair]
        exact (hinv m.type m.content hm).mp hseen
      rw [cleanupLoop, if_pos hseen, ih uniq seen n S hrest hinv,
        List.map_cons, dedupFirstAux, if_pos (hmpair ▸ hS)]
    · have hS : ¬ pairOf m ∈ S := fun hc => by
        apply hseen
        refine (hinv m.type m.content hm).mpr ?_
        rw [hmpair] at hc
        exact hc
      have hinv2 : ∀ t c, (t = "human" ∨ t = "ai") →
          ((t ++ ":" ++ c) ∈ ((m.type ++ ":" ++ m.content) :: seen)
            ↔ (t, c) ∈ (pairOf m :: S)) := by
        intro t c htc
        simp only [List.mem_cons]
        constructor
        · rintro (heq | hmem)
          · obtain ⟨ht, hc2⟩ := (typeKey_inj t c m.type m.content htc hm).mp heq
            left
            rw [hmpair, ht, hc2]
          · exact Or.inr ((hinv t c htc).mp hmem)
        · rintro (heq | hmem)
          · left
            rw [hmpair] at heq
            have ht : t = m.type := congrArg Prod.fst heq
            have hc2 : c = m.content := congrArg Prod.snd heq
            rw [ht, hc2]
          · exact Or.inr ((hinv t c htc).mpr hmem)
      rw [List.map_cons, dedupFirstAux, if_neg (hmpair ▸ hS)]
      by_cases hid : (getMessageId m).isSome = true
      · rw [cleanupLoop, if_neg hseen, if_pos hid,
          ih (uniq ++ [m]) _ n (pairOf m :: S) hrest hinv2]
        simp [List.map_append]
      · rcases hm with hty | hty
        · rw [cleanupLoop, if_neg hseen, if_neg hid, if_pos hty,
            ih (uniq ++ [setMessageId (mkHumanMessage m.content) (fresh n)]) _
              (n + 1) (pairOf m :: S) hrest hinv2]
          have hpair2 : pairOf (setMessageId (mkHumanMessage m.content) (fresh n))
              = pairOf m := by
            rw [pairOf_setMessageId, pairOf_mkHumanMessage, hmpair, hty]
          simp [List.map_append, hpair2]
        · have hne : ¬ m.type = "human" := by rw [hty]; decide
          rw [cleanupLoop, if_neg hseen, if_neg hid, if_neg hne, if_pos hty,
            ih (uniq ++ [setMessageId (mkAIMessage m.content) (fresh n)]) _
              (n + 1) (pairOf m :: S) hrest hinv2]
          have hpair2 : pairOf (setMessageId (mkAIMessage m.content) (fresh n))
              = pairOf m := by
            rw [pairOf_setMessageId, pairOf_mkAIMessage, hmpair, hty]
          simp [List.map_append, hpair2]

theorem isDuplicateUser_iff (existing : List Message) (q : String) :
    isDuplicateUser existing q = true
      ↔ ∃ m ∈ existing, m.type = "human" ∧ jsTrim m.content = jsTrim q := by
  simp [isDuplicateUser, List.any_eq_true]

theorem streamLoop_spec (sid mid : String) (chunks : List String) :
    ∀ (full : String) (out : List String),
      streamLoop sid mid chunks full out
        = (full ++ concatList (chunks.filter fun c => ¬ c = ""),
           out ++ (chunks.filter fun c => ¬ c = "").map fun c => deltaLine c sid mid ++ "\n") := by
  induction chunks with
  | nil =>
    intro full out
    simp [streamLoop, concatList, String.append_empty]
  | cons c rest ih =>
    intro full out
    by_cases hc : c = ""
    · subst hc
      simp only [streamLoop, if_pos rfl]
      rw [ih]
      simp
    · simp only [streamLoop, if_neg hc]
      rw [ih]
      simp [hc, concatList, String.append_assoc]

theorem createJsonStream_eq (chunks : List String) (sid mid : String) (h : List Message) :
    createJsonStream chunks sid mid h
      = ⟨(chunks.filter fun c => ¬ c = "").map (fun c => deltaLine c sid mid ++ "\n"),
         fullResponseOf chunks,
         if jsTrim (fullResponseOf chunks) ≠ "" then
           if h.any (fun m => m.type == "ai" && m.content == jsTrim (fullResponseOf chunks))
             then h
             else h ++ [setMessageId (mkAIMessage (fullResponseOf chunks)) mid]
         else h⟩ := by
  simp only [createJsonStream, streamLoop_spec, fullResponseOf]
  simp [String.empty_append]

/-! ## Claim theorems -/

/-- C6: message identifiers round-trip through the side-channel metadata
fields: after `setMessageId message id` with `id` non-empty,
`getMessageId` returns `id` (as a string value), and `getMessageId` reads
the identifier from `additional_kwargs.messageId`,
`response_metadata.messageId`, the direct `messageId` property, or `id`,
in that priority order (a falsy candidate defers to the next source). -/
theorem messageId_roundtrip_priority (m : Message) (mid : String) (hmid : mid ≠ "") :
    getMessageId (setMessageId m mid) = some (.str mid)
    ∧ (∀ v, truthyOpt (kwGet m.additional_kwargs "messageId") = some v →
        getMessageId m = some v)
    ∧ (truthyOpt (kwGet m.additional_kwargs "messageId") = none →
        ∀ v, truthyOpt (kwGet m.response_metadata "messageId") = some v →
          getMessageId m = some v)
    ∧ (truthyOpt (kwGet m.additional_kwargs "messageId") = none →
        truthyOpt (kwGet m.response_metadata "messageId") = none →
        ∀ v, truthyOpt m.messageId = some v → getMessageId m = some v)
    ∧ (truthyOpt (kwGet m.additional_kwargs "messageId") = none →
        truthyOpt (kwGet m.response_metadata "messageId") = none →
        truthyOpt m.messageId = none →
        getMessageId m = truthyOpt m.id) := by
  refine ⟨getMessageId_setMessageId m mid hmid, ?_, ?_, ?_, ?_⟩
  · intro v h
    unfold getMessageId
    rw [h]
    rfl
  · intro h1 v h2
    unfold getMessageId
    rw [h1, h2]
    rfl
  · intro h1 h2 v h3
    unfold getMessageId
    rw [h1, h2, h3]
    rfl
  · intro h1 h2 h3
    unfold getMessageId
    rw [h1, h2, h3]
    rfl

/-- Witness for C6 at a concrete message and identifier. -/
theorem messageId_roundtrip_priority_witness :
    getMessageId (setMessageId (mkHumanMessage "q") "abc") = some (.str "abc") :=
  (messageId_roundtrip_priority (mkHumanMessage "q") "abc" (by decide)).1

/-- C10: `postChats` never overwrites an existing session title: whenever
the session context already has a non-empty string title, the title phase
leaves the context unchanged and makes no title-model call or `setContext`
call; conversely the call happens only when the stored title is falsy
(absent, null or empty). -/
theorem postChats_title_preserved (ctx : KW) (g : JValue) :
    (∀ t : String, jsGet ctx "title" = .str t → t ≠ "" → titleStep ctx g = (ctx, false))
    ∧ ((titleStep ctx g).2 = true → (jsGet ctx "title").truthy = false) := by
  constructor
  · intro t ht hne
    have : (jsGet ctx "title").truthy = true := by
      rw [ht]; simp [JValue.truthy, hne]
    simp [titleStep, this]
  · intro h
    by_cases hb : (jsGet ctx "title").truthy = true
    · simp [titleStep, hb] at h
    · rw [Bool.not_eq_true] at hb
      exact hb

/-- Witness for C10 at a concrete context with a non-empty title. -/
theorem postChats_title_preserved_witness :
    titleStep [("title", JValue.str "T")] (JValue.str "g")
      = ([("title", JValue.str "T")], false) :=
  (postChats_title_preserved [("title", JValue.str "T")] (JValue.str "g")).1
    "T" (by decide) (by decide)

/-- C8: the client generator republishes exactly the responses whose
`delta` is present, once each, in the order received, each paired with the
`chunkIntervalMs` delay after which its promise resolves; responses
without a `delta` are skipped. -/
theorem getCompletion_republishes (rs : List CompletionResponse) (d : Nat) :
    getCompletion rs d = (rs.filter fun r => r.delta.isSome).map fun r => (r, d) := by
  induction rs with
  | nil => rfl
  | cons r rest ih =>
    by_cases h : r.delta.isSome
    · simp [getCompletion, h, ih]
    · simp [getCompletion, h, ih]

/-- C2: when the trimmed content of the last request message equals the
trimmed content of some stored human message, `postChats` adds no new user
message; otherwise it appends exactly one new `HumanMessage` tagged with
the freshly generated identifier, and this updated list is what the RAG
chain is invoked on. -/
theorem postChats_user_dedup (existing : List Message) (q fid : String) :
    ((∃ m ∈ existing, m.type = "human" ∧ jsTrim m.content = jsTrim q) →
        (addUserStep existing q fid).1 = existing)
    ∧ ((¬ ∃ m ∈ existing, m.type = "human" ∧ jsTrim m.content = jsTrim q) →
        (addUserStep existing q fid).1
          = existing ++ [setMessageId (mkHumanMessage q) fid]) := by
  constructor
  · intro hdup
    have hb : isDuplicateUser existing q = true :=
      (isDuplicateUser_iff existing q).mpr hdup
    unfold addUserStep
    rw [hb]
    simp only [if_true]
    cases (existing.filter fun m => m.type == "human" && m.content == q).getLast? <;> rfl
  · intro hnodup
    have hb : isDuplicateUser existing q = false := by
      rw [Bool.eq_false_iff]
      intro hc
      exact hnodup ((isDuplicateUser_iff existing q).mp hc)
    unfold addUserStep
    rw [hb]
    rfl

/-- Witness for C2: a duplicate request leaves the history unchanged. -/
theorem postChats_user_dedup_witness :
    (addUserStep [setMessageId (mkHumanMessage "hello") "id0"] " hello " "id1").1
      = [setMessageId (mkHumanMessage "hello") "id0"] :=
  (postChats_user_dedup [setMessageId (mkHumanMessage "hello") "id0"] " hello " "id1").1
    (by decide)

/-- C5: a completed `createJsonStream` run yields exactly one
newline-terminated NDJSON line per non-empty chunk — the `JSON.stringify`
serialization of the delta object with that chunk as content, role
`assistant`, and a context carrying the session and AI message identifiers
— and the accumulated full response, which is the concatenation of the
yielded delta contents, is exactly what an eventual commit appends to
storage. -/
theorem createJsonStream_line_protocol (chunks : List String) (sid mid : String)
    (h : List Message) :
    (createJsonStream chunks sid mid h).lines
        = (chunks.filter fun c => ¬ c = "").map (fun c => deltaLine c sid mid ++ "\n")
    ∧ (createJsonStream chunks sid mid h).fullResponse = fullResponseOf chunks
    ∧ ((createJsonStream chunks sid mid h).history = h ∨
        (createJsonStream chunks sid mid h).history
          = h ++ [setMessageId (mkAIMessage (fullResponseOf chunks)) mid]) := by
  rw [createJsonStream_eq]
  refine ⟨rfl, rfl, ?_⟩
  by_cases h1 : jsTrim (fullResponseOf chunks) ≠ ""
  · by_cases h2 : h.any
        (fun m => m.type == "ai" && m.content == jsTrim (fullResponseOf chunks)) = true
    · left; simp [h1, h2]
    · right
      rw [Bool.not_eq_true] at h2
      simp [h1, h2]
  · left; simp [h1]

/-- C1: for every completed stream the assistant answer is persisted at
most once: the accumulated full response is appended to the session
history exactly when its trimmed text is non-empty and no stored message
of type `ai` already carries content equal to that trimmed text; in every
other case the history is left unchanged, so a retried or re-run stream
does not persist a duplicate. -/
theorem createJsonStream_commit_dedup (chunks : List String) (sid mid : String)
    (h : List Message) :
    ((jsTrim (fullResponseOf chunks) ≠ "" ∧
        ¬ ∃ m ∈ h, m.type = "ai" ∧ m.content = jsTrim (fullResponseOf chunks)) →
      (createJsonStream chunks sid mid h).history
        = h ++ [setMessageId (mkAIMessage (fullResponseOf chunks)) mid])
    ∧ ((jsTrim (fullResponseOf chunks) = "" ∨
        ∃ m ∈ h, m.type = "ai" ∧ m.content = jsTrim (fullResponseOf chunks)) →
      (createJsonStream chunks sid mid h).history = h) := by
  rw [createJsonStream_eq]
  constructor
  · rintro ⟨h1, h2⟩
    have hany : h.any
        (fun m => m.type == "ai" && m.content == jsTrim (fullResponseOf chunks)) = false := by
      rw [Bool.eq_false_iff]
      intro hc
      apply h2
      simpa [List.any_eq_true] using hc
    simp [h1, hany]
  · intro hdisj
    cases hdisj with
    | inl hempty => simp [hempty]
    | inr hexists =>
      have hany : h.any
          (fun m => m.type == "ai" && m.content == jsTrim (fullResponseOf chunks)) = true := by
        simpa [List.any_eq_true] using hexists
      by_cases h1 : jsTrim (fullResponseOf chunks) ≠ ""
      · simp [h1, hany]
      · simp [h1]

/-- Witness for C1: a non-empty fresh response is committed. -/
theorem createJsonStream_commit_dedup_witness :
    (createJsonStream ["Hello"] "s" "m" []).history
      = [] ++ [setMessageId (mkAIMessage (fullResponseOf ["Hello"])) "m"] :=
  (createJsonStream_commit_dedup ["Hello"] "s" "m" []).1 (by decide)

/-- C9: `deleteMessage` is atomic on lookup failure: when the session has
no messages, or no stored message's identifier equals the requested one,
the handler answers with a bad request (`remaining = none`) and the stored
history is unchanged — the store is never cleared before the target
message has been found. -/
theorem deleteMessage_atomic_on_failure (msgs : List Message) (mid sid uid now : String)
    (hfail : msgs = [] ∨ ∀ m ∈ msgs, ¬ getMessageId m = some (.str mid)) :
    deleteMessage msgs mid sid uid now = ⟨msgs, none⟩ := by
  cases msgs with
  | nil => rfl
  | cons m0 rest =>
    rcases hfail with h | h
    · exact absurd h (by simp)
    · have hfind : ((m0 :: rest).find? (matchesId mid)).isSome = false := by
        rw [Bool.eq_false_iff]
        intro hc
        rw [List.find?_isSome] at hc
        obtain ⟨x, hx, hpx⟩ := hc
        have hgx : getMessageId x = some (.str mid) := by
          simpa [matchesId] using hpx
        exact h x hx hgx
      simp [deleteMessage, hfind]

/-- Witness for C9: an empty session yields a bad request and no change. -/
theorem deleteMessage_atomic_on_failure_witness :
    deleteMessage [] "x" "s" "u" "t" = ⟨[], none⟩ :=
  deleteMessage_atomic_on_failure [] "x" "s" "u" "t" (Or.inl rfl)

/-- C3: when some stored message carries the requested identifier,
`deleteMessage` leaves the history holding exactly the other messages in
their original relative order (compared by type, content and identifier —
their `additional_kwargs` are enriched by the rewrite, which claim C4
covers), and reports `remainingMessages` equal to the original count minus
the number of messages matching that identifier. -/
theorem deleteMessage_filters_history (msgs : List Message) (mid sid uid now : String)
    (hfound : ∃ m ∈ msgs, getMessageId m = some (.str mid)) :
    (deleteMessage msgs mid sid uid now).stored.map msgCore
        = (msgs.filter fun m => ¬ getMessageId m = some (.str mid)).map msgCore
    ∧ (deleteMessage msgs mid sid uid now).remaining
        = some (msgs.length
            - (msgs.filter fun m => getMessageId m = some (.str mid)).length) := by
  cases msgs with
  | nil =>
    obtain ⟨m, hm, _⟩ := hfound
    exact absurd hm (List.not_mem_nil m)
  | cons m0 rest =>
    have hfind : ((m0 :: rest).find? (matchesId mid)).isSome = true := by
      rw [List.find?_isSome]
      obtain ⟨m, hm, hmid2⟩ := hfound
      exact ⟨m, hm, by simpa [matchesId] using hmid2⟩
    constructor
    · simp only [deleteMessage, hfind, if_true]
      rw [reAddAll_map_msgCore]
      simp [matchesId, decide_not]
    · simp only [deleteMessage, hfind, if_true]
      rw [length_filter_not (matchesId mid) (m0 :: rest)]
      rfl

/-- Witness for C3 at a concrete two-message session. -/
theorem deleteMessage_filters_history_witness :
    (deleteMessage [cexHuman, cexAi] "a" "s" "u" "t").remaining
      = some (([cexHuman, cexAi] : List Message).length
          - (([cexHuman, cexAi] : List Message).filter
              fun m => getMessageId m = some (.str "a")).length) :=
  (deleteMessage_filters_history [cexHuman, cexAi] "a" "s" "u" "t" (by decide)).2

/-- C4 counterexample: the claim that each re-added message's own
pre-existing `additional_kwargs` fields are unchanged by the rewrite fails
on the code: deleting message `"a"` from the session `[cexHuman, cexAi]`
re-adds `cexAi` (same type, content and identifier) with its pre-existing
`messageIndex` field overwritten from `5` to its new position `0`. -/
theorem deleteMessage_metadata_counterexample :
    kwGet cexAi.additional_kwargs "messageIndex" = some (.num 5)
    ∧ (deleteMessage [cexHuman, cexAi] "a" "s" "u" "t").stored.length = 1
    ∧ msgCore ((deleteMessage [cexHuman, cexAi] "a" "s" "u" "t").stored.headD
        (mkHumanMessage "")) = msgCore cexAi
    ∧ kwGet ((deleteMessage [cexHuman, cexAi] "a" "s" "u" "t").stored.headD
        (mkHumanMessage "")).additional_kwargs "messageIndex" = some (.num 0) := by
  decide

/-- C4 (amended): during `deleteMessage`, session-level metadata is not
lost by the clear-and-rewrite: every field of the first original message's
`additional_kwargs` other than `messageId`, `content` and `role` is
present on every re-added message, and each re-added message's own
pre-existing `additional_kwargs` fields other than the bookkeeping fields
`messageId`, `messageIndex`, `isFirst` and `isLast` are unchanged; its
`messageId` is unchanged whenever it is truthy (in particular whenever it
is a non-empty string), while `messageIndex`, `isFirst` and `isLast` are
overwritten with the message's new position. -/
theorem deleteMessage_metadata_amended (fm : Message) (rest2 : List Message)
    (mid sid uid now : String)
    (hfound : ∃ m ∈ fm :: rest2, getMessageId m = some (.str mid)) :
    (∀ k v, kwGet fm.additional_kwargs k = some v →
        k ≠ "messageId" → k ≠ "content" → k ≠ "role" →
        ∀ m2 ∈ (deleteMessage (fm :: rest2) mid sid uid now).stored,
          (kwGet m2.additional_kwargs k).isSome = true)
    ∧ (∀ (j : Nat) (mfil m2 : Message) (k : String) (v : JValue),
        ((fm :: rest2).filter fun m => ¬ getMessageId m = some (.str mid))[j]?
            = some mfil →
        ((deleteMessage (fm :: rest2) mid sid uid now).stored)[j]? = some m2 →
        k ≠ "messageId" → k ≠ "messageIndex" → k ≠ "isFirst" → k ≠ "isLast" →
        kwGet mfil.additional_kwargs k = some v →
        kwGet m2.additional_kwargs k = some v)
    ∧ (∀ (j : Nat) (mfil m2 : Message) (v : JValue),
        ((fm :: rest2).filter fun m => ¬ getMessageId m = some (.str mid))[j]?
            = some mfil →
        ((deleteMessage (fm :: rest2) mid sid uid now).stored)[j]? = some m2 →
        v.truthy = true →
        kwGet mfil.additional_kwargs "messageId" = some v →
        kwGet m2.additional_kwargs "messageId" = some v) := by
  have hfind : ((fm :: rest2).find? (matchesId mid)).isSome = true := by
    rw [List.find?_isSome]
    obtain ⟨m, hm, hmid2⟩ := hfound
    exact ⟨m, hm, by simpa [matchesId] using hmid2⟩
  have hstored : (deleteMessage (fm :: rest2) mid sid uid now).stored
      = reAddAll (sessionMetadataOf fm sid uid now)
          ((fm :: rest2).filter fun m => ! matchesId mid m).length 0
          ((fm :: rest2).filter fun m => ! matchesId mid m) := by
    simp only [deleteMessage, hfind, if_true]
  have hfilter : ((fm :: rest2).filter fun m => ¬ getMessageId m = some (.str mid))
      = (fm :: rest2).filter fun m => ! matchesId mid m := by
    simp only [decide_not]
    rfl
  refine ⟨?_, ?_, ?_⟩
  · intro k v hv hk1 hk2 hk3 m2 hm2
    rw [hstored] at hm2
    obtain ⟨j, m3, _, heq⟩ := mem_reAddAll _ _ _ _ _ hm2
    subst heq
    rw [reAddMessage_kwargs, kwGet_kwMerge]
    apply orElse_isSome
    rw [kwGet_kwMerge]
    apply orElse_isSome
    rw [kwGet_sessionMetadataOf fm sid uid now k v hk1 hk2 hk3 hv]
    rfl
  · intro j mfil m2 k v hjf hjm hk1 hk2 hk3 hk4 hv
    rw [hfilter] at hjf
    rw [hstored, reAddAll_getElem?, hjf] at hjm
    simp only [Option.map_some', Nat.zero_add] at hjm
    obtain rfl := Option.some.inj hjm
    rw [reAddMessage_kwargs, kwGet_kwMerge]
    have hextra : kwGet
        [("messageId", jsOr (jsGet mfil.additional_kwargs "messageId")
            ((getMessageId mfil).getD .null)),
         ("messageIndex", .num j),
         ("isFirst", .bool (j == 0)),
         ("isLast", .bool (j == ((fm :: rest2).filter
            fun m => ! matchesId mid m).length - 1))] k = none := by
      simp [kwGet, Ne.symm hk1, Ne.symm hk2, Ne.symm hk3, Ne.symm hk4]
    rw [hextra]
    show kwGet (kwMerge (sessionMetadataOf fm sid uid now) mfil.additional_kwargs) k
        = some v
    rw [kwGet_kwMerge, hv]
    rfl
  · intro j mfil m2 v hjf hjm htr hv
    rw [hfilter] at hjf
    rw [hstored, reAddAll_getElem?, hjf] at hjm
    simp only [Option.map_some', Nat.zero_add] at hjm
    obtain rfl := Option.some.inj hjm
    rw [reAddMessage_kwargs, kwGet_kwMerge]
    have hextra : kwGet
        [("messageId", jsOr (jsGet mfil.additional_kwargs "messageId")
            ((getMessageId mfil).getD .null)),
         ("messageIndex", .num j),
         ("isFirst", .bool (j == 0)),
         ("isLast", .bool (j == ((fm :: rest2).filter
            fun m => ! matchesId mid m).length - 1))] "messageId"
        = some (jsOr (jsGet mfil.additional_kwargs "messageId")
            ((getMessageId mfil).getD .null)) := by
      simp [kwGet]
    rw [hextra]
    have hjs : jsGet mfil.additional_kwargs "messageId" = v := by
      simp [jsGet, hv]
    rw [hjs]
    simp [jsOr, htr, Option.orElse]

/-- Witness for C4 (amended): the session title survives the rewrite onto
the re-added message. -/
theorem deleteMessage_metadata_amended_witness :
    (kwGet ((deleteMessage [cexHuman, cexAi] "a" "s" "u" "t").stored.headD
        (mkHumanMessage "")).additional_kwargs "title").isSome = true := by
  have h := (deleteMessage_metadata_amended cexHuman [cexAi] "a" "s" "u" "t"
    (by decide)).1 "title" (.str "T") (by decide) (by decide) (by decide) (by decide)
  exact h _ (by decide)

/-- C7: after `cleanupDuplicates` the stored history contains no two
messages with the same (type, content) pair; projected to (type, content)
it keeps exactly the first occurrence of each pair in its original
relative order (`dedupFirst`); the reported `removedDuplicates` equals the
original message count minus the retained count; and the store is
rewritten only when that difference is positive (otherwise the stored
messages are untouched).  The hypothesis records that the session holds
only `human` and `ai` messages, the only kinds this system's writers ever
store. -/
theorem cleanupDuplicates_spec (msgs : List Message) (fresh : Nat → String)
    (htypes : ∀ m ∈ msgs, m.type = "human" ∨ m.type = "ai") :
    ((cleanupDuplicates msgs fresh).stored.map pairOf).Nodup
    ∧ (cleanupDuplicates msgs fresh).stored.map pairOf
        = dedupFirst (msgs.map pairOf)
    ∧ (cleanupDuplicates msgs fresh).removedDuplicates
        = msgs.length - (cleanupDuplicates msgs fresh).stored.length
    ∧ ((cleanupDuplicates msgs fresh).rewritten = true
        ↔ 0 < (cleanupDuplicates msgs fresh).removedDuplicates)
    ∧ ((cleanupDuplicates msgs fresh).rewritten = false
        → (cleanupDuplicates msgs fresh).stored = msgs) := by
  have hinv0 : ∀ t c, (t = "human" ∨ t = "ai") →
      ((t ++ ":" ++ c) ∈ ([] : List String)
        ↔ (t, c) ∈ ([] : List (String × String))) := by
    intro t c _
    simp
  have hpairs : (cleanupLoop fresh msgs [] [] 0).map pairOf
      = dedupFirst (msgs.map pairOf) := by
    have h := cleanupLoop_pairs fresh msgs [] [] 0 [] htypes hinv0
    simpa [dedupFirst] using h
  have hsub : List.Sublist ((cleanupLoop fresh msgs [] [] 0).map pairOf)
      (msgs.map pairOf) := by
    rw [hpairs]
    exact dedupFirstAux_sublist _ _
  have hlen : (cleanupLoop fresh msgs [] [] 0).length ≤ msgs.length := by
    have h2 := hsub.length_le
    simpa using h2
  by_cases hrem : 0 < msgs.length - (cleanupLoop fresh msgs [] [] 0).length
  · have hres : cleanupDuplicates msgs fresh
        = ⟨cleanupLoop fresh msgs [] [] 0,
           msgs.length - (cleanupLoop fresh msgs [] [] 0).length, true⟩ := by
      simp only [cleanupDuplicates, if_pos hrem]
    rw [hres]
    refine ⟨?_, hpairs, rfl, ?_, ?_⟩
    · rw [hpairs]
      exact dedupFirstAux_nodup _ _
    · simpa using hrem
    · intro hc
      simp at hc
  · have h0 : msgs.length - (cleanupLoop fresh msgs [] [] 0).length = 0 := by omega
    have hres : cleanupDuplicates msgs fresh
        = ⟨msgs, msgs.length - (cleanupLoop fresh msgs [] [] 0).length, false⟩ := by
      simp only [cleanupDuplicates, if_neg hrem]
    rw [hres]
    have hlen2 : (cleanupLoop fresh msgs [] [] 0).length = msgs.length := by omega
    have heq : (cleanupLoop fresh msgs [] [] 0).map pairOf = msgs.map pairOf := by
      apply hsub.eq_of_length
      simp [hlen2]
    refine ⟨?_, ?_, ?_, ?_, fun _ => rfl⟩
    · show (msgs.map pairOf).Nodup
      rw [← heq, hpairs]
      exact dedupFirstAux_nodup _ _
    · show msgs.map pairOf = dedupFirst (msgs.map pairOf)
      calc msgs.map pairOf
          = (cleanupLoop fresh msgs [] [] 0).map pairOf := heq.symm
        _ = dedupFirst (msgs.map pairOf) := hpairs
    · simp [h0]
    · simp [h0]

/-- Witness for C7 at a concrete session with one duplicate. -/
theorem cleanupDuplicates_spec_witness :
    ((cleanupDuplicates [mkHumanMessage "a", mkHumanMessage "a", mkAIMessage "b"]
        (fun _ => "u")).stored.map pairOf).Nodup :=
  (cleanupDuplicates_spec [mkHumanMessage "a", mkHumanMessage "a", mkAIMessage "b"]
    (fun _ => "u") (by decide)).1

end Chat
